import Mathlib

/-!
Shallow embedding of the token-based denoising sampler of this repository
(src/utils.py: `log`, `gumbel_noise`, `gumbel_sample`, `sample`;
src/modules.py: `DenoiseUNet.gamma`, `DenoiseUNet.add_noise`), together with
theorems settling the specification claims about it.

Modelling conventions:
  * A token grid (a batched 3-D int64 tensor in the source) is modelled
    position-major as `Grid := ℕ → ℤ`: positions are flattened
    (batch, h, w) indices; the spatial `size` only fixes which positions
    exist and plays no role in any per-position claim.
  * Real-valued tensors become `ℝ`-valued functions; the logits tensor
    `(batch, num_labels, h, w)` becomes `ℕ → ℕ → ℝ` (position, class),
    absorbing the source's `permute/reshape` flattening, which is pure
    reindexing.
  * Scores that the source can set to `-float("Inf")` live in `EReal`
    (float semantics restricted to the operations actually applied to
    them: division by a positive real and addition of a finite real).
  * Randomness is passed explicitly: `torch.bernoulli` becomes an oracle
    `ℝ → ℕ → Bool` receiving the success probability, `torch.randint(0, n)`
    becomes an arbitrary integer stream reduced `% n` (hitting exactly the
    values in `[0, n)`), and the uniform draws behind `gumbel_noise` become
    an explicit `ℝ`-valued stream.
  * The external denoiser network is an opaque function field of
    `DenoiseUNet`; its layer structure is out of scope per the spec.
  * Fallible tensor indexing (`r_range[i]`) is modelled with `List.getElem?`,
    so a sampling run returns `Option Grid`, `none` meaning the source
    raises an out-of-range indexing error.
-/

namespace Paella

/-- A flattened token grid: integer class index per position. -/
abbrev Grid : Type := ℕ → ℤ

/-- The external denoiser: its label count and its forward pass
`(tokens, c, r, c_full) ↦ logits`, modelled as an opaque function
(position-major, class-indexed). -/
structure DenoiseUNet where
  num_labels : ℕ
  forward : Grid → (ℕ → ℝ) → ℝ → (ℕ → ℝ) → ℕ → ℕ → ℝ

/-- modules.py `DenoiseUNet.gamma`: `(r * torch.pi / 2).cos()`. -/
noncomputable def DenoiseUNet.gamma (r : ℝ) : ℝ := Real.cos (r * Real.pi / 2)

/-- modules.py `DenoiseUNet.add_noise`: draw a Bernoulli mask with success
probability `gamma r` (the draw itself is the oracle `bern`, which receives
that probability), replace masked positions by `random_x` when given and by
fresh uniform tokens in `[0, num_labels)` otherwise, keep the rest.
`torch.bernoulli` yields values in `{0.0, 1.0}`, so after
`.round().long()` the mask holds exactly `0` or `1`. -/
noncomputable def DenoiseUNet.add_noise (model : DenoiseUNet) (x : Grid) (r : ℝ)
    (random_x : Option Grid) (bern : ℝ → ℕ → Bool) (randTok : ℕ → ℤ) :
    Grid × (ℕ → ℤ) :=
  let p := DenoiseUNet.gamma r
  let mask : ℕ → ℤ := fun pos => if bern p pos then 1 else 0
  let rX : Grid :=
    match random_x with
    | some g => g
    | none => fun pos => randTok pos % (model.num_labels : ℤ)
  (fun pos => x pos * (1 - mask pos) + rX pos * mask pos, mask)

/-- utils.py `log`: `torch.log(t + eps)` with the default `eps = 1e-20`
inlined. -/
noncomputable def log (t : ℝ) : ℝ := Real.log (t + 1 / 10 ^ 20)

/-- utils.py `gumbel_noise`: `-log(-log(uniform))`, the uniform draw `u`
passed explicitly. -/
noncomputable def gumbel_noise (u : ℝ) : ℝ := -(log (-(log u)))

/-- Index of the first maximum, running accumulator version
(`best` value so far, its index `bi`, index `cur` of the head of the
remaining list). -/
noncomputable def argmaxGo (best : EReal) (bi : ℕ) (cur : ℕ) : List EReal → ℕ
  | [] => bi
  | v :: t => if best < v then argmaxGo v cur (cur + 1) t else argmaxGo best bi (cur + 1) t

/-- `torch.argmax` along the class dimension: index of the first maximal
entry (`0` for an empty list). -/
noncomputable def argmaxIdx : List EReal → ℕ
  | [] => 0
  | v :: t => argmaxGo v 0 1 t

/-- utils.py `gumbel_sample`:
`((t / max(temperature, 1e-10)) + gumbel_noise(t)).argmax(dim=-1)` over the
`n` classes of one position's score row `t`; `u` is the uniform stream
behind the Gumbel noise. -/
noncomputable def gumbel_sample (t : ℕ → EReal) (n : ℕ) (u : ℕ → ℝ)
    (temperature : ℝ) : ℕ :=
  argmaxIdx ((List.range n).map fun j =>
    t j / ((max temperature (1 / 10 ^ 10) : ℝ) : EReal) + ((gumbel_noise (u j) : ℝ) : EReal))

/-- `torch.linspace a b steps`. -/
noncomputable def linspace (a b : ℝ) (steps : ℕ) : List ℝ :=
  (List.range steps).map fun (i : ℕ) =>
    if steps ≤ 1 then a else a + (i : ℝ) * (b - a) / ((steps : ℝ) - 1)

/-- utils.py `sample`: `r_range = torch.linspace(0, 1, T+1)[:-1]`
(the per-batch `expand` is dropped: every batch element gets the same
value). -/
noncomputable def r_range (T : ℕ) : List ℝ := (linspace 0 1 (T + 1)).dropLast

/-- The sampling configuration of utils.py `sample` (its keyword
parameters; `size` only fixes the set of flattened positions). -/
structure SampleCfg where
  T : ℕ
  starting_t : ℕ
  temp0 : ℝ
  temp1 : ℝ
  typical_filtering : Bool
  typical_mass : ℝ
  typical_min_tokens : ℕ
  classifier_free_scale : ℝ
  renoise_steps : ℕ
  renoise_mode : String

/-- utils.py `sample`: `temperatures = torch.linspace(temp_range[0], temp_range[1], T)`. -/
noncomputable def temperatures (cfg : SampleCfg) : List ℝ :=
  linspace cfg.temp0 cfg.temp1 cfg.T

/-- All random sources consumed by one call of `sample`, passed explicitly:
the `torch.randint` stream of the initialization, the `torch.randint`
stream of the mask blend, the per-(step, position, class) uniform draws of
`gumbel_noise`, the per-step Bernoulli oracle of `add_noise`, and the
per-step `torch.randint` stream of un-supplied `random_x`. -/
structure Rand where
  initTok : ℕ → ℤ
  maskNoise : ℕ → ℤ
  gumbelU : ℕ → ℕ → ℕ → ℝ
  bern : ℕ → ℝ → ℕ → Bool
  renoiseTok : ℕ → ℕ → ℤ

/-- `torch.lerp(start, end, weight) = start + weight * (end - start)`. -/
noncomputable def lerp (a b w : ℝ) : ℝ := a + w * (b - a)

/-- utils.py `sample`, lines 111-114: the conditioned denoiser call, and —
when `classifier_free_scale >= 0` — a second call with zeroed `c` and
`c_full` blended in by `torch.lerp`. -/
noncomputable def step_logits (model : DenoiseUNet) (classifier_free_scale : ℝ)
    (c c_full : ℕ → ℝ) (x : Grid) (r : ℝ) : ℕ → ℕ → ℝ :=
  let logits := model.forward x c r c_full
  if 0 ≤ classifier_free_scale then
    let logits_uncond := model.forward x (fun _ => 0) r (fun _ => 0)
    fun pos j => lerp (logits_uncond pos j) (logits pos j) classifier_free_scale
  else logits

/-! ### Typical filtering (utils.py `sample`, lines 117-131)

All definitions act on one flattened position's logit row `row` with `n`
classes (`n = num_labels`), exactly as the source acts on each row of
`x_flat`. -/

/-- `x_flat_norm = torch.nn.functional.log_softmax(x_flat, dim=-1)`:
`row j - log (Σ_k exp (row k))`. -/
noncomputable def x_flat_norm (row : ℕ → ℝ) (n : ℕ) (j : ℕ) : ℝ :=
  row j - Real.log (((List.range n).map fun k => Real.exp (row k)).sum)

/-- `entropy = -(x_flat_norm * x_flat_norm_p).nansum(-1)` with
`x_flat_norm_p = torch.exp(x_flat_norm)`; over `ℝ` no NaN arises, so
`nansum` is the plain sum. -/
noncomputable def entropy (row : ℕ → ℝ) (n : ℕ) : ℝ :=
  -(((List.range n).map fun j =>
      x_flat_norm row n j * Real.exp (x_flat_norm row n j)).sum)

/-- `c_flat_shifted = torch.abs((-x_flat_norm) - entropy)`: the typicality
distance of class `j`. -/
noncomputable def c_flat_shifted (row : ℕ → ℝ) (n : ℕ) (j : ℕ) : ℝ :=
  |(-(x_flat_norm row n j)) - entropy row n|

/-- `torch.sort(c_flat_shifted, descending=False)` returns values and
indices together: model it as one ascending sort of (class, distance)
pairs by distance. -/
noncomputable def sortPairs (row : ℕ → ℝ) (n : ℕ) : List (ℕ × ℝ) :=
  ((List.range n).map fun j => (j, c_flat_shifted row n j)).mergeSort
    fun a b => decide (a.2 ≤ b.2)

/-- The `x_flat_indices` component of the sort. -/
noncomputable def x_flat_indices (row : ℕ → ℝ) (n : ℕ) : List ℕ :=
  (sortPairs row n).map Prod.fst

/-- The `c_flat_sorted` component of the sort. -/
noncomputable def c_flat_sorted (row : ℕ → ℝ) (n : ℕ) : List ℝ :=
  (sortPairs row n).map Prod.snd

/-- `x_flat_cumsum = x_flat.gather(-1, x_flat_indices).softmax(dim=-1).cumsum(dim=-1)`:
softmax of the gathered raw logits, then inclusive prefix sums. -/
noncomputable def x_flat_cumsum (row : ℕ → ℝ) (n : ℕ) : List ℝ :=
  let g := (x_flat_indices row n).map row
  let s := (g.map Real.exp).sum
  let probs := g.map fun v => Real.exp v / s
  (List.range probs.length).map fun k => (probs.take (k + 1)).sum

/-- `last_ind = (x_flat_cumsum < typical_mass).sum(dim=-1)`. -/
noncomputable def last_ind (row : ℕ → ℝ) (n : ℕ) (typical_mass : ℝ) : ℕ :=
  (x_flat_cumsum row n).countP fun v => decide (v < typical_mass)

/-- `sorted_indices_to_remove = c_flat_sorted > c_flat_sorted.gather(1, last_ind)`,
then `sorted_indices_to_remove[..., :typical_min_tokens] = 0` when
`typical_min_tokens > 1`. -/
noncomputable def sorted_indices_to_remove (row : ℕ → ℝ) (n : ℕ)
    (typical_mass : ℝ) (typical_min_tokens : ℕ) : List Bool :=
  let cutoff := (c_flat_sorted row n).getD (last_ind row n typical_mass) 0
  let base := (c_flat_sorted row n).map fun v => decide (cutoff < v)
  if 1 < typical_min_tokens then
    base.mapIdx fun k b => if k < typical_min_tokens then false else b
  else base

/-- `Tensor.scatter(1, index, src)` on a row: `out[index[k]] = src[k]`,
positions not hit by `index` keep the value of the tensor scattered into. -/
def scatterRow (base : List Bool) (index : List ℕ) (src : List Bool) : List Bool :=
  (List.range base.length).map fun i =>
    match index.findIdx? (fun v => v == i) with
    | some k => src.getD k false
    | none => base.getD i false

/-- `indices_to_remove = sorted_indices_to_remove.scatter(1, x_flat_indices, sorted_indices_to_remove)`. -/
noncomputable def indices_to_remove (row : ℕ → ℝ) (n : ℕ) (typical_mass : ℝ)
    (typical_min_tokens : ℕ) : List Bool :=
  scatterRow (sorted_indices_to_remove row n typical_mass typical_min_tokens)
    (x_flat_indices row n)
    (sorted_indices_to_remove row n typical_mass typical_min_tokens)

/-- `x_flat.masked_fill(rem, -float("Inf"))` on one row: removed classes
get `⊥ : EReal` (float `-inf`), the rest keep their finite score. -/
noncomputable def masked_fill (row : ℕ → ℝ) (rem : List Bool) : ℕ → EReal :=
  fun j => if rem.getD j false then (⊥ : EReal) else ((row j : ℝ) : EReal)

/-- The whole typical filter of utils.py `sample` lines 117-131 on one row. -/
noncomputable def typical_filter (row : ℕ → ℝ) (n : ℕ) (typical_mass : ℝ)
    (typical_min_tokens : ℕ) : ℕ → EReal :=
  masked_fill row (indices_to_remove row n typical_mass typical_min_tokens)

/-- Number of classes of a score row that keep a finite score. -/
noncomputable def keptCount (scores : ℕ → EReal) (n : ℕ) : ℕ :=
  (List.range n).countP fun j => decide (scores j ≠ ⊥)

/-- Modelled from the spec (§4.2, missing from the code, for the refinement
comparison of C2): "retains exactly the classes up to (and not exceeding)
that cutoff", i.e. removal decided by the *sorted position* `k` being past
`last_ind`, with the `min_tokens` override. -/
noncomputable def sorted_remove_cutoff_spec (row : ℕ → ℝ) (n : ℕ)
    (typical_mass : ℝ) (typical_min_tokens : ℕ) : List Bool :=
  (List.range n).map fun k =>
    decide (last_ind row n typical_mass < k) &&
      !(decide (1 < typical_min_tokens) && decide (k < typical_min_tokens))

/-- Modelled from the spec (§4.2): the typical filter with the spec's
"exactly the classes up to that cutoff" removal rule, mapped back through
the same sort indices. -/
noncomputable def typical_filter_cutoff_spec (row : ℕ → ℝ) (n : ℕ)
    (typical_mass : ℝ) (typical_min_tokens : ℕ) : ℕ → EReal :=
  masked_fill row
    (scatterRow (sorted_remove_cutoff_spec row n typical_mass typical_min_tokens)
      (x_flat_indices row n)
      (sorted_remove_cutoff_spec row n typical_mass typical_min_tokens))

/-! ### The denoising loop (utils.py `sample`, lines 97-144) -/

/-- Lines 115-119, 133-136 of one iteration: per-position scores (typical
filtering applied or plain coercion of the blended logits). -/
noncomputable def step_scores (model : DenoiseUNet) (cfg : SampleCfg)
    (c c_full : ℕ → ℝ) (x : Grid) (r : ℝ) : ℕ → ℕ → EReal :=
  let lg := step_logits model cfg.classifier_free_scale c c_full x r
  if cfg.typical_filtering then
    fun pos => typical_filter (lg pos) model.num_labels cfg.typical_mass
      cfg.typical_min_tokens
  else fun pos j => ((lg pos j : ℝ) : EReal)

/-- One loop iteration up to and including the mask restore
(lines 109-136): look up `r_range[i]` and `temperatures[i]`, run the
denoiser (with optional guidance and typical filtering), Gumbel-sample a
token per position, and restore fixed positions when a mask is supplied
(`x = sampled * mask + (1 - mask) * init_x`). -/
noncomputable def step_core (model : DenoiseUNet) (cfg : SampleCfg)
    (c c_full : ℕ → ℝ) (mask : Option Grid) (R : Rand) (init_x : Grid)
    (i : ℕ) (x : Grid) : Option Grid :=
  match (r_range cfg.T)[i]?, (temperatures cfg)[i]? with
  | some r, some temp =>
      some (fun pos =>
        let sampled : ℤ :=
          (gumbel_sample (step_scores model cfg c c_full x r pos)
            model.num_labels (R.gumbelU i pos) temp : ℕ)
        match mask with
        | some m => sampled * m pos + (1 - m pos) * init_x pos
        | none => sampled)
  | _, _ => none

/-- One full loop iteration (lines 107-143): the core, then — when
`i < renoise_steps` — re-corruption by `add_noise` at `r_range[i+1]` with
`random_x` chosen by `renoise_mode` (`'start'`: the initial grid, `'prev'`:
the grid cloned at the top of this iteration, anything else: fresh random
tokens). -/
noncomputable def sample_step (model : DenoiseUNet) (cfg : SampleCfg)
    (c c_full : ℕ → ℝ) (mask : Option Grid) (R : Rand) (init_x : Grid)
    (i : ℕ) (x : Grid) : Option Grid :=
  let prev_x := x
  match step_core model cfg c c_full mask R init_x i x with
  | some x1 =>
      if i < cfg.renoise_steps then
        match (r_range cfg.T)[i + 1]? with
        | some r1 =>
            let random_x : Option Grid :=
              if cfg.renoise_mode = "start" then some init_x
              else if cfg.renoise_mode = "prev" then some prev_x
              else none
            some (model.add_noise x1 r1 random_x (R.bern i) (R.renoiseTok i)).1
        | none => none
      else some x1
  | none => none

/-- `for i in range(starting_t, T)` over an explicit list of step indices. -/
noncomputable def runSteps (model : DenoiseUNet) (cfg : SampleCfg)
    (c c_full : ℕ → ℝ) (mask : Option Grid) (R : Rand) (init_x : Grid) :
    List ℕ → Grid → Option Grid
  | [], x => some x
  | i :: rest, x =>
      match sample_step model cfg c c_full mask R init_x i x with
      | some y => runSteps model cfg c c_full mask R init_x rest y
      | none => none

/-- utils.py `sample` (lines 97-144): initialization (lines 100-105) and
the denoising loop over `range(starting_t, T)`. -/
noncomputable def sample (model : DenoiseUNet) (cfg : SampleCfg)
    (c c_full : ℕ → ℝ) (x : Option Grid) (mask : Option Grid) (R : Rand) :
    Option Grid :=
  let x0 : Grid :=
    match x, mask with
    | none, _ => fun pos => R.initTok pos % (model.num_labels : ℤ)
    | some xc, some m => fun pos =>
        (R.maskNoise pos % (model.num_labels : ℤ)) * m pos + (1 - m pos) * xc pos
    | some xc, none => xc
  let init_x : Grid := x0
  runSteps model cfg c c_full mask R init_x
    (List.range' cfg.starting_t (cfg.T - cfg.starting_t)) x0

/-! ### Basic facts about the schedule lists -/

theorem length_linspace (a b : ℝ) (steps : ℕ) : (linspace a b steps).length = steps := by
  rw [linspace, List.length_map, List.length_range]

theorem length_r_range (T : ℕ) : (r_range T).length = T := by
  simp [r_range, length_linspace]

theorem length_temperatures (cfg : SampleCfg) : (temperatures cfg).length = cfg.T := by
  simp [temperatures, length_linspace]

/-! ### C8: the gamma schedule -/

/-- C8 (confirmed): the gamma schedule is `gamma r = cos (r·π/2)`, with
`gamma 0 = 1`, `gamma 1 = 0`, and it is monotonically non-increasing on
`[0, 1]`. -/
theorem gamma_cosine_schedule :
    DenoiseUNet.gamma 0 = 1 ∧ DenoiseUNet.gamma 1 = 0 ∧
      AntitoneOn DenoiseUNet.gamma (Set.Icc 0 1) := by
  refine ⟨by simp [DenoiseUNet.gamma], ?_, ?_⟩
  · simp [DenoiseUNet.gamma, Real.cos_pi_div_two]
  · intro a ha b hb hab
    simp only [DenoiseUNet.gamma]
    apply Real.cos_le_cos_of_nonneg_of_le_pi
    · nlinarith [Real.pi_pos, ha.1]
    · nlinarith [Real.pi_pos, hb.2]
    · nlinarith [Real.pi_pos]

/-! ### C6: add_noise semantics -/

theorem add_noise_mask (model : DenoiseUNet) (x : Grid) (r : ℝ)
    (random_x : Option Grid) (bern : ℝ → ℕ → Bool) (randTok : ℕ → ℤ) (pos : ℕ) :
    (model.add_noise x r random_x bern randTok).2 pos
      = if bern (DenoiseUNet.gamma r) pos then 1 else 0 := rfl

theorem add_noise_fst_some (model : DenoiseUNet) (x : Grid) (r : ℝ) (g : Grid)
    (bern : ℝ → ℕ → Bool) (randTok : ℕ → ℤ) (pos : ℕ) :
    (model.add_noise x r (some g) bern randTok).1 pos =
      x pos * (1 - (model.add_noise x r (some g) bern randTok).2 pos) +
        g pos * (model.add_noise x r (some g) bern randTok).2 pos := rfl

theorem add_noise_fst_none (model : DenoiseUNet) (x : Grid) (r : ℝ)
    (bern : ℝ → ℕ → Bool) (randTok : ℕ → ℤ) (pos : ℕ) :
    (model.add_noise x r none bern randTok).1 pos =
      x pos * (1 - (model.add_noise x r none bern randTok).2 pos) +
        (randTok pos % (model.num_labels : ℤ)) *
          (model.add_noise x r none bern randTok).2 pos := rfl

/-- C6 (confirmed): for every grid and every `r`, `add_noise` returns a
mask with values only in `{0, 1}`; where the mask is `0` the returned grid
keeps the original value; where it is `1` the value is taken from
`random_x` when supplied, and otherwise is a fresh uniform-random token in
`[0, num_labels)`. -/
theorem add_noise_mask_semantics (model : DenoiseUNet) (x : Grid) (r : ℝ)
    (random_x : Option Grid) (bern : ℝ → ℕ → Bool) (randTok : ℕ → ℤ)
    (hn : 0 < model.num_labels) (pos : ℕ) :
    ((model.add_noise x r random_x bern randTok).2 pos = 0 ∨
      (model.add_noise x r random_x bern randTok).2 pos = 1) ∧
    ((model.add_noise x r random_x bern randTok).2 pos = 0 →
      (model.add_noise x r random_x bern randTok).1 pos = x pos) ∧
    ((model.add_noise x r random_x bern randTok).2 pos = 1 →
      (∀ g, random_x = some g →
        (model.add_noise x r random_x bern randTok).1 pos = g pos) ∧
      (random_x = none →
        (model.add_noise x r random_x bern randTok).1 pos =
            randTok pos % (model.num_labels : ℤ) ∧
          0 ≤ (model.add_noise x r random_x bern randTok).1 pos ∧
          (model.add_noise x r random_x bern randTok).1 pos < model.num_labels)) := by
  have hnz : (model.num_labels : ℤ) ≠ 0 := by
    exact_mod_cast Nat.pos_iff_ne_zero.mp hn
  have hpos : (0 : ℤ) < model.num_labels := by exact_mod_cast hn
  by_cases hb : bern (DenoiseUNet.gamma r) pos
  · have hm : (model.add_noise x r random_x bern randTok).2 pos = 1 := by
      rw [add_noise_mask, if_pos hb]
    refine ⟨Or.inr hm, fun h0 => absurd (h0 ▸ hm) (by norm_num), fun _ => ⟨?_, ?_⟩⟩
    · rintro g rfl
      rw [add_noise_fst_some, hm]; ring
    · rintro rfl
      rw [add_noise_fst_none, hm]
      refine ⟨by ring, ?_, ?_⟩
      · have := Int.emod_nonneg (randTok pos) hnz
        nlinarith [Int.emod_nonneg (randTok pos) hnz]
      · have := Int.emod_lt_of_pos (randTok pos) hpos
        nlinarith [Int.emod_lt_of_pos (randTok pos) hpos]
  · have hm : (model.add_noise x r random_x bern randTok).2 pos = 0 := by
      rw [add_noise_mask, if_neg hb]
    refine ⟨Or.inl hm, fun _ => ?_, fun h1 => absurd (h1 ▸ hm).symm (by norm_num)⟩
    cases random_x with
    | none => rw [add_noise_fst_none, hm]; ring
    | some g => rw [add_noise_fst_some, hm]; ring

/-- C6 witness: the mask/restore semantics at a concrete call. -/
theorem add_noise_mask_semantics_witness :
    ((DenoiseUNet.mk 1 fun _ _ _ _ _ _ => 0).add_noise (fun _ => 0) 0 none
        (fun _ _ => false) (fun _ => 0)).2 0 = 0 ∨
      ((DenoiseUNet.mk 1 fun _ _ _ _ _ _ => 0).add_noise (fun _ => 0) 0 none
        (fun _ _ => false) (fun _ => 0)).2 0 = 1 :=
  (add_noise_mask_semantics (DenoiseUNet.mk 1 fun _ _ _ _ _ _ => 0) (fun _ => 0) 0
    none (fun _ _ => false) (fun _ => 0) (by norm_num) 0).1

/-! ### C4: classifier-free guidance -/

/-- C4 (confirmed): whenever `classifier_free_scale ≥ 0`, the logits used
for sampling are `uncond + scale·(cond − uncond)` where the unconditioned
logits come from a second denoiser call with zeroed `c` and `c_full`; at
scale 1 they equal the conditioned output alone, at scale 0 the
unconditioned one. -/
theorem classifier_free_guidance_blend (model : DenoiseUNet) (s : ℝ)
    (c c_full : ℕ → ℝ) (x : Grid) (r : ℝ) (hs : 0 ≤ s) :
    (∀ pos j, step_logits model s c c_full x r pos j =
        model.forward x (fun _ => 0) r (fun _ => 0) pos j +
          s * (model.forward x c r c_full pos j -
            model.forward x (fun _ => 0) r (fun _ => 0) pos j)) ∧
    (s = 1 → step_logits model s c c_full x r = model.forward x c r c_full) ∧
    (s = 0 → step_logits model s c c_full x r =
        model.forward x (fun _ => 0) r (fun _ => 0)) := by
  have hl : ∀ pos j, step_logits model s c c_full x r pos j =
      lerp (model.forward x (fun _ => 0) r (fun _ => 0) pos j)
        (model.forward x c r c_full pos j) s := by
    intro pos j
    simp [step_logits, if_pos hs]
  refine ⟨fun pos j => by rw [hl]; simp [lerp], ?_, ?_⟩
  · rintro rfl
    funext pos j
    rw [hl]; simp [lerp]
  · rintro rfl
    funext pos j
    rw [hl]; simp [lerp]

/-- C4 witness: at scale 1 the blend reduces to the conditioned call. -/
theorem classifier_free_guidance_blend_witness :
    step_logits (DenoiseUNet.mk 1 fun _ _ _ _ _ _ => 0) 1 (fun _ => 0) (fun _ => 0)
        (fun _ => 0) 0 =
      (DenoiseUNet.mk 1 fun _ _ _ _ _ _ => 0).forward (fun _ => 0) (fun _ => 0) 0
        (fun _ => 0) :=
  (classifier_free_guidance_blend (DenoiseUNet.mk 1 fun _ _ _ _ _ _ => 0) 1
    (fun _ => 0) (fun _ => 0) (fun _ => 0) 0 (by norm_num)).2.1 rfl

/-! ### C7: renoise_steps = 0 applies no re-corruption -/

/-- C7 (confirmed): with `renoise_steps = 0` the re-corruption branch is
never taken: every full iteration equals its core (denoise, sample,
mask-restore), so the grid handed to step `i+1` — and the final grid — is
exactly the tokens sampled at step `i`, mask-restored, with no further
mutation. -/
theorem renoise_steps_zero_no_recorruption (model : DenoiseUNet) (cfg : SampleCfg)
    (c c_full : ℕ → ℝ) (mask : Option Grid) (R : Rand) (init_x : Grid) (i : ℕ)
    (x : Grid) (h : cfg.renoise_steps = 0) :
    sample_step model cfg c c_full mask R init_x i x =
      step_core model cfg c c_full mask R init_x i x := by
  unfold sample_step
  cases hc : step_core model cfg c c_full mask R init_x i x with
  | none => rfl
  | some x1 => simp [h]

/-- C7 witness: a concrete one-step run with `renoise_steps = 0`. -/
theorem renoise_steps_zero_witness :
    sample_step (DenoiseUNet.mk 1 fun _ _ _ _ _ _ => 0)
        (SampleCfg.mk 1 0 1 1 false 1 1 (-1) 0 "start") (fun _ => 0) (fun _ => 0)
        none (Rand.mk (fun _ => 0) (fun _ => 0) (fun _ _ _ => 0) (fun _ _ _ => false)
          (fun _ _ => 0)) (fun _ => 0) 0 (fun _ => 0) =
      step_core (DenoiseUNet.mk 1 fun _ _ _ _ _ _ => 0)
        (SampleCfg.mk 1 0 1 1 false 1 1 (-1) 0 "start") (fun _ => 0) (fun _ => 0)
        none (Rand.mk (fun _ => 0) (fun _ => 0) (fun _ _ _ => 0) (fun _ _ _ => false)
          (fun _ _ => 0)) (fun _ => 0) 0 (fun _ => 0) :=
  renoise_steps_zero_no_recorruption _ _ _ _ _ _ _ _ _ rfl

/-! ### Shared concrete instances for witnesses and counterexamples -/

/-- A one-label constant denoiser. -/
noncomputable def model1 : DenoiseUNet := DenoiseUNet.mk 1 fun _ _ _ _ _ _ => 0

/-- The zero condition vector. -/
noncomputable def zeroR : ℕ → ℝ := fun _ => 0

/-- The all-zero grid. -/
noncomputable def gridZ : Grid := fun _ => 0

/-- The all-zero / all-false random sources. -/
noncomputable def rand0 : Rand :=
  Rand.mk (fun _ => 0) (fun _ => 0) (fun _ _ _ => 0) (fun _ _ _ => false) (fun _ _ => 0)

/-- A trivial configuration: one step, no filtering, no guidance, no
re-noising. -/
noncomputable def cfg0 : SampleCfg := SampleCfg.mk 1 0 1 1 false 1 1 (-1) 0 "start"

/-- The all-zero mask (all positions fixed). -/
noncomputable def maskAll0 : Grid := fun _ => 0

/-! ### C10: unrecognized renoise_mode behaves as "rand" -/

theorem step_core_mode_irrelevant (model : DenoiseUNet) (cfg : SampleCfg)
    (c c_full : ℕ → ℝ) (mask : Option Grid) (R : Rand) (init_x : Grid) (i : ℕ)
    (x : Grid) (mode : String) :
    step_core model { cfg with renoise_mode := mode } c c_full mask R init_x i x
      = step_core model cfg c c_full mask R init_x i x := rfl

/-- Reduction of one full iteration once its core result is known. -/
theorem sample_step_eq (model : DenoiseUNet) (cfg : SampleCfg) (c c_full : ℕ → ℝ)
    (mask : Option Grid) (R : Rand) (init_x : Grid) (i : ℕ) (x y : Grid)
    (hy : step_core model cfg c c_full mask R init_x i x = some y) :
    sample_step model cfg c c_full mask R init_x i x =
      if i < cfg.renoise_steps then
        match (r_range cfg.T)[i + 1]? with
        | some r1 =>
            some (model.add_noise y r1
              (if cfg.renoise_mode = "start" then some init_x
                else if cfg.renoise_mode = "prev" then some x else none)
              (R.bern i) (R.renoiseTok i)).1
        | none => none
      else some y := by
  unfold sample_step
  rw [hy]

theorem sample_step_mode_rand (model : DenoiseUNet) (cfg : SampleCfg)
    (c c_full : ℕ → ℝ) (mask : Option Grid) (R : Rand) (init_x : Grid) (i : ℕ)
    (x : Grid) (h1 : cfg.renoise_mode ≠ "start") (h2 : cfg.renoise_mode ≠ "prev") :
    sample_step model cfg c c_full mask R init_x i x =
      sample_step model { cfg with renoise_mode := "rand" } c c_full mask R init_x
        i x := by
  cases hy : step_core model cfg c c_full mask R init_x i x with
  | none =>
      unfold sample_step
      rw [step_core_mode_irrelevant model cfg c c_full mask R init_x i x "rand", hy]
  | some y =>
      have hy2 : step_core model { cfg with renoise_mode := "rand" } c c_full mask
          R init_x i x = some y := by
        rw [step_core_mode_irrelevant model cfg c c_full mask R init_x i x "rand"]
        exact hy
      rw [sample_step_eq model cfg c c_full mask R init_x i x y hy,
        sample_step_eq model { cfg with renoise_mode := "rand" } c c_full mask R
          init_x i x y hy2]
      dsimp only
      by_cases hi : i < cfg.renoise_steps
      · rw [if_pos hi, if_pos hi]
        cases (r_range cfg.T)[i + 1]? with
        | none => rfl
        | some r1 => simp [h1, h2]
      · rw [if_neg hi, if_neg hi]

/-- C10 (confirmed): the sampling entry point performs no validation of
`renoise_mode`: any value other than `"start"` and `"prev"` behaves exactly
as `"rand"` (fresh uniform replacement tokens), with no error. -/
theorem unrecognized_renoise_mode_is_rand (model : DenoiseUNet) (cfg : SampleCfg)
    (c c_full : ℕ → ℝ) (x mask : Option Grid) (R : Rand)
    (h1 : cfg.renoise_mode ≠ "start") (h2 : cfg.renoise_mode ≠ "prev") :
    sample model cfg c c_full x mask R =
      sample model { cfg with renoise_mode := "rand" } c c_full x mask R := by
  have hrun : ∀ (steps : List ℕ) (init_x x0 : Grid),
      runSteps model cfg c c_full mask R init_x steps x0 =
        runSteps model { cfg with renoise_mode := "rand" } c c_full mask R init_x
          steps x0 := by
    intro steps
    induction steps with
    | nil => intro _ _; rfl
    | cons i rest ih =>
        intro init_x x0
        unfold runSteps
        rw [← sample_step_mode_rand model cfg c c_full mask R init_x i x0 h1 h2]
        cases sample_step model cfg c c_full mask R init_x i x0 with
        | none => rfl
        | some y => exact ih init_x y

  exact hrun _ _ _

/-- C10 witness: mode `"foo"` gives the same run as mode `"rand"`. -/
theorem unrecognized_mode_witness :
    sample model1 (SampleCfg.mk 1 0 1 1 false 1 1 (-1) 0 "foo") zeroR zeroR
        (some gridZ) none rand0 =
      sample model1
        { SampleCfg.mk 1 0 1 1 false 1 1 (-1) 0 "foo" with renoise_mode := "rand" }
        zeroR zeroR (some gridZ) none rand0 :=
  unrecognized_renoise_mode_is_rand model1 _ zeroR zeroR (some gridZ) none rand0
    (by decide) (by decide)

/-! ### C5: step-range safety -/

theorem sample_step_isSome (model : DenoiseUNet) (cfg : SampleCfg)
    (c c_full : ℕ → ℝ) (mask : Option Grid) (R : Rand) (init_x : Grid) (i : ℕ)
    (x : Grid) (hi : i < cfg.T) (hren : i < cfg.renoise_steps → i + 1 < cfg.T) :
    (sample_step model cfg c c_full mask R init_x i x).isSome = true := by
  have h1 : i < (r_range cfg.T).length := by rw [length_r_range]; exact hi
  have h2 : i < (temperatures cfg).length := by rw [length_temperatures]; exact hi
  have hcore : ∃ y, step_core model cfg c c_full mask R init_x i x = some y := by
    unfold step_core
    rw [List.getElem?_eq_getElem h1, List.getElem?_eq_getElem h2]
    exact ⟨_, rfl⟩
  obtain ⟨y, hy⟩ := hcore
  rw [sample_step_eq model cfg c c_full mask R init_x i x y hy]
  by_cases hi2 : i < cfg.renoise_steps
  · have h3 : i + 1 < (r_range cfg.T).length := by
      rw [length_r_range]; exact hren hi2
    rw [if_pos hi2, List.getElem?_eq_getElem h3]
    rfl
  · rw [if_neg hi2]
    rfl

theorem runSteps_isSome (model : DenoiseUNet) (cfg : SampleCfg) (c c_full : ℕ → ℝ)
    (mask : Option Grid) (R : Rand) (init_x : Grid) :
    ∀ (steps : List ℕ) (x : Grid),
      (∀ i ∈ steps, i < cfg.T ∧ (i < cfg.renoise_steps → i + 1 < cfg.T)) →
      (runSteps model cfg c c_full mask R init_x steps x).isSome = true := by
  intro steps
  induction steps with
  | nil => intro x _; rfl
  | cons i rest ih =>
      intro x hmem
      have hi := hmem i (List.mem_cons_self i rest)
      have hs := sample_step_isSome model cfg c c_full mask R init_x i x hi.1 hi.2
      unfold runSteps
      cases hstep : sample_step model cfg c c_full mask R init_x i x with
      | none => rw [hstep] at hs; cases hs
      | some y => exact ih y fun j hj => hmem j (List.mem_cons_of_mem i hj)

/-- C5 (corrected/amended): for every `T > 0`, `starting_t ∈ [0, T)` and
`renoise_steps ∈ [0, T)` the loop runs all steps and returns a grid with no
out-of-range access (the re-noising index `r_{i+1}` exists at every step
`i < renoise_steps`); the claim's range `[0, T]` is wrong: at
`renoise_steps = T` step `T−1` reads `r_range[T]`, which does not exist
(see the counterexample). -/
theorem loop_indices_safe (model : DenoiseUNet) (cfg : SampleCfg)
    (c c_full : ℕ → ℝ) (x mask : Option Grid) (R : Rand) (hT : 0 < cfg.T)
    (hst : cfg.starting_t < cfg.T) (hr : cfg.renoise_steps < cfg.T) :
    (sample model cfg c c_full x mask R).isSome = true := by
  unfold sample
  apply runSteps_isSome
  intro i hi
  rw [List.mem_range'] at hi
  obtain ⟨k, hk, rfl⟩ := hi
  exact ⟨by omega, fun _ => by omega⟩

/-- C5 witness: a concrete safe run with `renoise_steps < T`. -/
theorem loop_indices_safe_witness :
    (sample model1 cfg0 zeroR zeroR (some gridZ) none rand0).isSome = true :=
  loop_indices_safe model1 cfg0 zeroR zeroR (some gridZ) none rand0 (by decide)
    (by decide) (by decide)

/-- C5 counterexample: with `T = 1` and `renoise_steps = 1 = T` (a value
the claim allows), step 0 re-noises with `r_range[1]`, but `r_range` has a
single entry: the run aborts with an out-of-range access (modelled as
`none`). -/
theorem renoise_steps_eq_T_out_of_range :
    sample model1 (SampleCfg.mk 1 0 1 1 false 1 1 (-1) 1 "rand") zeroR zeroR
      (some gridZ) none rand0 = none := rfl

/-! ### Bounds on the arg-max index -/

theorem argmaxGo_lt (t : List EReal) : ∀ (best : EReal) (bi cur : ℕ), bi < cur →
    argmaxGo best bi cur t < cur + t.length := by
  induction t with
  | nil =>
      intro best bi cur h
      simpa [argmaxGo] using h
  | cons v tl ih =>
      intro best bi cur h
      unfold argmaxGo
      by_cases hlt : best < v
      · rw [if_pos hlt]
        have := ih v cur (cur + 1) (Nat.lt_succ_self cur)
        simp only [List.length_cons]
        omega
      · rw [if_neg hlt]
        have := ih best bi (cur + 1) (Nat.lt_succ_of_lt h)
        simp only [List.length_cons]
        omega

theorem argmaxIdx_lt (l : List EReal) (h : 0 < l.length) : argmaxIdx l < l.length := by
  cases l with
  | nil => simp at h
  | cons v t =>
      have := argmaxGo_lt t v 0 1 Nat.one_pos
      unfold argmaxIdx
      simp only [List.length_cons]
      omega

/-- The sampled class index is always in `[0, n)` for `n > 0`. -/
theorem gumbel_sample_lt (t : ℕ → EReal) (n : ℕ) (u : ℕ → ℝ) (temp : ℝ)
    (hn : 0 < n) : gumbel_sample t n u temp < n := by
  unfold gumbel_sample
  have hl : ((List.range n).map fun j =>
      t j / ((max temp (1 / 10 ^ 10) : ℝ) : EReal) +
        ((gumbel_noise (u j) : ℝ) : EReal)).length = n := by
    rw [List.length_map, List.length_range]
  have := argmaxIdx_lt ((List.range n).map fun j =>
      t j / ((max temp (1 / 10 ^ 10) : ℝ) : EReal) +
        ((gumbel_noise (u j) : ℝ) : EReal)) (by rw [hl]; exact hn)
  rwa [hl] at this

/-! ### Pointwise description of the core of one iteration -/

theorem step_core_some_mask (model : DenoiseUNet) (cfg : SampleCfg)
    (c c_full : ℕ → ℝ) (m : ℕ → ℤ) (R : Rand) (init_x : Grid) (i : ℕ) (x y : Grid)
    (h : step_core model cfg c c_full (some m) R init_x i x = some y) (pos : ℕ) :
    ∃ s : ℕ, (0 < model.num_labels → s < model.num_labels) ∧
      y pos = (s : ℤ) * m pos + (1 - m pos) * init_x pos := by
  unfold step_core at h
  cases h1 : (r_range cfg.T)[i]? with
  | none => rw [h1] at h; cases h
  | some r =>
      cases h2 : (temperatures cfg)[i]? with
      | none => rw [h1, h2] at h; cases h
      | some temp =>
          rw [h1, h2] at h
          have hy := (Option.some.inj h).symm
          refine ⟨gumbel_sample (step_scores model cfg c c_full x r pos)
            model.num_labels (R.gumbelU i pos) temp,
            fun hn => gumbel_sample_lt _ _ _ _ hn, ?_⟩
          rw [hy]

theorem step_core_some_nomask (model : DenoiseUNet) (cfg : SampleCfg)
    (c c_full : ℕ → ℝ) (R : Rand) (init_x : Grid) (i : ℕ) (x y : Grid)
    (h : step_core model cfg c c_full none R init_x i x = some y) (pos : ℕ) :
    ∃ s : ℕ, (0 < model.num_labels → s < model.num_labels) ∧ y pos = (s : ℤ) := by
  unfold step_core at h
  cases h1 : (r_range cfg.T)[i]? with
  | none => rw [h1] at h; cases h
  | some r =>
      cases h2 : (temperatures cfg)[i]? with
      | none => rw [h1, h2] at h; cases h
      | some temp =>
          rw [h1, h2] at h
          have hy := (Option.some.inj h).symm
          refine ⟨gumbel_sample (step_scores model cfg c c_full x r pos)
            model.num_labels (R.gumbelU i pos) temp,
            fun hn => gumbel_sample_lt _ _ _ _ hn, ?_⟩
          rw [hy]

/-! ### C1: mask-0 positions -/

theorem sample_step_mask_zero (model : DenoiseUNet) (cfg : SampleCfg)
    (c c_full : ℕ → ℝ) (m : ℕ → ℤ) (R : Rand) (init_x : Grid) (i : ℕ) (x x' : Grid)
    (hmode : cfg.renoise_mode = "start" ∨ cfg.renoise_mode = "prev")
    (hx : ∀ pos, m pos = 0 → x pos = init_x pos)
    (h : sample_step model cfg c c_full (some m) R init_x i x = some x')
    (pos : ℕ) (hm : m pos = 0) : x' pos = init_x pos := by
  cases hc : step_core model cfg c c_full (some m) R init_x i x with
  | none => unfold sample_step at h; rw [hc] at h; cases h
  | some x1 =>
      have hx1 : x1 pos = init_x pos := by
        obtain ⟨s, _, hy⟩ := step_core_some_mask model cfg c c_full m R init_x i x
          x1 hc pos
        rw [hy, hm]; ring
      rw [sample_step_eq model cfg c c_full (some m) R init_x i x x1 hc] at h
      by_cases hi : i < cfg.renoise_steps
      · rw [if_pos hi] at h
        cases hr1 : (r_range cfg.T)[i + 1]? with
        | none => rw [hr1] at h; cases h
        | some r1 =>
            rw [hr1] at h
            have hx' := (Option.some.inj h).symm
            cases hmode with
            | inl hs =>
                have hrx : (if cfg.renoise_mode = "start" then some init_x
                    else if cfg.renoise_mode = "prev" then some x else none) =
                      some init_x := by rw [hs]; exact if_pos rfl
                rw [hrx] at hx'
                rw [hx', add_noise_fst_some, add_noise_mask, hx1]
                by_cases hb : R.bern i (DenoiseUNet.gamma r1) pos
                · rw [if_pos hb]; ring
                · rw [if_neg hb]; ring
            | inr hp =>
                have hrx : (if cfg.renoise_mode = "start" then some init_x
                    else if cfg.renoise_mode = "prev" then some x else none) =
                      some x := by
                    rw [hp, if_neg (by decide : ¬("prev" : String) = "start")]
                    exact if_pos rfl
                rw [hrx] at hx'
                rw [hx', add_noise_fst_some, add_noise_mask, hx1, hx pos hm]
                by_cases hb : R.bern i (DenoiseUNet.gamma r1) pos
                · rw [if_pos hb]; ring
                · rw [if_neg hb]; ring
      · rw [if_neg hi] at h
        rw [← Option.some.inj h]
        exact hx1

theorem runSteps_mask_zero (model : DenoiseUNet) (cfg : SampleCfg)
    (c c_full : ℕ → ℝ) (m : ℕ → ℤ) (R : Rand) (init_x : Grid)
    (hmode : cfg.renoise_mode = "start" ∨ cfg.renoise_mode = "prev") :
    ∀ (steps : List ℕ) (x g : Grid),
      (∀ pos, m pos = 0 → x pos = init_x pos) →
      runSteps model cfg c c_full (some m) R init_x steps x = some g →
      ∀ pos, m pos = 0 → g pos = init_x pos := by
  intro steps
  induction steps with
  | nil =>
      intro x g hx h
      unfold runSteps at h
      rw [← Option.some.inj h]
      exact hx
  | cons i rest ih =>
      intro x g hx h
      unfold runSteps at h
      cases hstep : sample_step model cfg c c_full (some m) R init_x i x with
      | none => rw [hstep] at h; cases h
      | some y =>
          rw [hstep] at h
          exact ih y g
            (fun pos hm => sample_step_mask_zero model cfg c c_full m R init_x i x
              y hmode hx hstep pos hm) h

/-- C1 (corrected/amended): with `renoise_mode` `"start"` or `"prev"`,
positions with mask 0 keep the initial grid value after every denoising
step, and the final grid keeps the caller-supplied value there. The
claim's "for all renoise modes" is wrong: in mode `"rand"` (or any
unrecognized mode) the re-noising of a step `i < renoise_steps` can
overwrite mask-0 positions with fresh random tokens (see the
counterexample). -/
theorem mask_zero_positions_preserved (model : DenoiseUNet) (cfg : SampleCfg)
    (c c_full : ℕ → ℝ) (R : Rand) (m : ℕ → ℤ)
    (hmode : cfg.renoise_mode = "start" ∨ cfg.renoise_mode = "prev") :
    (∀ init_x i x x', (∀ pos, m pos = 0 → x pos = init_x pos) →
        sample_step model cfg c c_full (some m) R init_x i x = some x' →
        ∀ pos, m pos = 0 → x' pos = init_x pos) ∧
    (∀ xc g, sample model cfg c c_full (some xc) (some m) R = some g →
        ∀ pos, m pos = 0 → g pos = xc pos) := by
  constructor
  · intro init_x i x x' hx h pos hm
    exact sample_step_mask_zero model cfg c c_full m R init_x i x x' hmode hx h
      pos hm
  · intro xc g h pos hm
    simp only [sample] at h
    have hg := runSteps_mask_zero model cfg c c_full m R _ hmode _ _ _
      (fun _ _ => rfl) h pos hm
    rw [hg]
    simp only [hm]
    ring

/-- C1 witness: a concretely preserved mask-0 position in `"start"` mode. -/
theorem mask_zero_positions_preserved_witness : (fun _ => (0 : ℤ)) 0 = gridZ 0 :=
  (mask_zero_positions_preserved model1 cfg0 zeroR zeroR rand0 maskAll0
      (Or.inl rfl)).1 gridZ 0 gridZ (fun _ => (0 : ℤ)) (fun _ _ => rfl) rfl 0 rfl

/-- C1 counterexample: with `renoise_mode = "rand"` and `renoise_steps = 1`,
a position with mask 0 and initial value 5 is overwritten to the fresh
random token 0 by the re-noising of step 0 — mask-0 positions are not
preserved for all renoise modes. -/
theorem mask_zero_overwritten_in_rand_mode :
    maskAll0 0 = 0 ∧ (fun _ => (5 : ℤ)) 0 = 5 ∧
      sample_step model1 (SampleCfg.mk 2 0 1 1 false 1 1 (-1) 1 "rand") zeroR zeroR
          (some maskAll0)
          (Rand.mk (fun _ => 0) (fun _ => 0) (fun _ _ _ => 0) (fun _ _ _ => true)
            (fun _ _ => 0))
          (fun _ => (5 : ℤ)) 0 (fun _ => (5 : ℤ)) =
        some (fun _ => (0 : ℤ)) ∧ ((0 : ℤ) ≠ 5) :=
  ⟨rfl, rfl, rfl, by decide⟩

/-! ### C9: all produced token grids stay in `[0, num_labels)` -/

/-- Values of a grid all lie in `[0, num_labels)`. -/
def inRange (n : ℕ) (g : Grid) : Prop := ∀ pos, 0 ≤ g pos ∧ g pos < (n : ℤ)

/-- A mask holds only the values 0 and 1 (the spec's data-model invariant). -/
def maskBinary (m : ℕ → ℤ) : Prop := ∀ pos, m pos = 0 ∨ m pos = 1

/-- `maskBinary` for an optional mask. -/
def maskBinaryOpt : Option Grid → Prop
  | none => True
  | some m => maskBinary m

/-- The optional caller-supplied grid is in range when supplied. -/
def inRangeOpt (n : ℕ) : Option Grid → Prop
  | none => True
  | some g => inRange n g

theorem emod_bounds (n : ℕ) (hn : 0 < n) (v : ℤ) :
    0 ≤ v % (n : ℤ) ∧ v % (n : ℤ) < (n : ℤ) :=
  ⟨Int.emod_nonneg v (by exact_mod_cast Nat.pos_iff_ne_zero.mp hn),
    Int.emod_lt_of_pos v (by exact_mod_cast hn)⟩

theorem step_core_inRange (model : DenoiseUNet) (cfg : SampleCfg)
    (c c_full : ℕ → ℝ) (mask : Option Grid) (R : Rand) (init_x : Grid) (i : ℕ)
    (x y : Grid) (hn : 0 < model.num_labels) (hmask : maskBinaryOpt mask)
    (hinit : inRange model.num_labels init_x)
    (h : step_core model cfg c c_full mask R init_x i x = some y) :
    inRange model.num_labels y := by
  intro pos
  cases mask with
  | none =>
      obtain ⟨s, hs, hy⟩ := step_core_some_nomask model cfg c c_full R init_x i x
        y h pos
      rw [hy]
      exact ⟨Int.natCast_nonneg s, by exact_mod_cast hs hn⟩
  | some m =>
      obtain ⟨s, hs, hy⟩ := step_core_some_mask model cfg c c_full m R init_x i x
        y h pos
      rcases hmask pos with hm | hm
      · have h1 : (s : ℤ) * m pos + (1 - m pos) * init_x pos = init_x pos := by
          rw [hm]; ring
        rw [hy, h1]
        exact hinit pos
      · have h1 : (s : ℤ) * m pos + (1 - m pos) * init_x pos = (s : ℤ) := by
          rw [hm]; ring
        rw [hy, h1]
        exact ⟨Int.natCast_nonneg s, by exact_mod_cast hs hn⟩

theorem add_noise_inRange (model : DenoiseUNet) (x : Grid) (r : ℝ)
    (random_x : Option Grid) (bern : ℝ → ℕ → Bool) (randTok : ℕ → ℤ)
    (hn : 0 < model.num_labels) (hx : inRange model.num_labels x)
    (hrx : ∀ g, random_x = some g → inRange model.num_labels g) :
    inRange model.num_labels (model.add_noise x r random_x bern randTok).1 := by
  intro pos
  obtain ⟨h01, h0, h1⟩ := add_noise_mask_semantics model x r random_x bern randTok
    hn pos
  rcases h01 with hm | hm
  · rw [h0 hm]
    exact hx pos
  · cases random_x with
    | some g =>
        rw [(h1 hm).1 g rfl]
        exact hrx g rfl pos
    | none =>
        exact ⟨((h1 hm).2 rfl).2.1, ((h1 hm).2 rfl).2.2⟩

theorem sample_step_inRange (model : DenoiseUNet) (cfg : SampleCfg)
    (c c_full : ℕ → ℝ) (mask : Option Grid) (R : Rand) (init_x : Grid) (i : ℕ)
    (x y : Grid) (hn : 0 < model.num_labels) (hmask : maskBinaryOpt mask)
    (hinit : inRange model.num_labels init_x) (hx : inRange model.num_labels x)
    (h : sample_step model cfg c c_full mask R init_x i x = some y) :
    inRange model.num_labels y := by
  cases hc : step_core model cfg c c_full mask R init_x i x with
  | none => unfold sample_step at h; rw [hc] at h; cases h
  | some x1 =>
      have hx1 := step_core_inRange model cfg c c_full mask R init_x i x x1 hn
        hmask hinit hc
      rw [sample_step_eq model cfg c c_full mask R init_x i x x1 hc] at h
      by_cases hi : i < cfg.renoise_steps
      · rw [if_pos hi] at h
        cases hr1 : (r_range cfg.T)[i + 1]? with
        | none => rw [hr1] at h; cases h
        | some r1 =>
            rw [hr1] at h
            rw [← Option.some.inj h]
            apply add_noise_inRange model x1 r1 _ _ _ hn hx1
            intro g hg
            by_cases h1 : cfg.renoise_mode = "start"
            · rw [if_pos h1] at hg
              rw [← Option.some.inj hg]
              exact hinit
            · rw [if_neg h1] at hg
              by_cases h2 : cfg.renoise_mode = "prev"
              · rw [if_pos h2] at hg
                rw [← Option.some.inj hg]
                exact hx
              · rw [if_neg h2] at hg
                cases hg
      · rw [if_neg hi] at h
        rw [← Option.some.inj h]
        exact hx1

theorem runSteps_inRange (model : DenoiseUNet) (cfg : SampleCfg)
    (c c_full : ℕ → ℝ) (mask : Option Grid) (R : Rand) (init_x : Grid)
    (hn : 0 < model.num_labels) (hmask : maskBinaryOpt mask)
    (hinit : inRange model.num_labels init_x) :
    ∀ (steps : List ℕ) (x g : Grid), inRange model.num_labels x →
      runSteps model cfg c c_full mask R init_x steps x = some g →
      inRange model.num_labels g := by
  intro steps
  induction steps with
  | nil =>
      intro x g hx h
      unfold runSteps at h
      rw [← Option.some.inj h]
      exact hx
  | cons i rest ih =>
      intro x g hx h
      unfold runSteps at h
      cases hstep : sample_step model cfg c c_full mask R init_x i x with
      | none => rw [hstep] at h; cases h
      | some y =>
          rw [hstep] at h
          exact ih y g
            (sample_step_inRange model cfg c c_full mask R init_x i x y hn hmask
              hinit hx hstep) h

/-- C9 (confirmed): with `num_labels > 0`, a binary mask and an in-range
caller grid (when supplied), every token value produced during sampling is
an integer in `[0, num_labels)`: the arg-max sampled class index, the grid
after the core of each step (sampling + mask restore), the grid after each
full step (including re-noising), and the grid returned by `sample`. -/
theorem token_values_in_range (model : DenoiseUNet) (cfg : SampleCfg)
    (c c_full : ℕ → ℝ) (R : Rand) (hn : 0 < model.num_labels) :
    (∀ (t : ℕ → EReal) (u : ℕ → ℝ) (temp : ℝ),
        gumbel_sample t model.num_labels u temp < model.num_labels) ∧
    (∀ mask init_x i x y, maskBinaryOpt mask → inRange model.num_labels init_x →
        step_core model cfg c c_full mask R init_x i x = some y →
        inRange model.num_labels y) ∧
    (∀ mask init_x i x y, maskBinaryOpt mask → inRange model.num_labels init_x →
        inRange model.num_labels x →
        sample_step model cfg c c_full mask R init_x i x = some y →
        inRange model.num_labels y) ∧
    (∀ x mask g, inRangeOpt model.num_labels x → maskBinaryOpt mask →
        sample model cfg c c_full x mask R = some g →
        inRange model.num_labels g) := by
  refine ⟨fun t u temp => gumbel_sample_lt t model.num_labels u temp hn,
    fun mask init_x i x y h1 h2 h3 =>
      step_core_inRange model cfg c c_full mask R init_x i x y hn h1 h2 h3,
    fun mask init_x i x y h1 h2 h3 h4 =>
      sample_step_inRange model cfg c c_full mask R init_x i x y hn h1 h2 h3 h4,
    ?_⟩
  intro x mask g hx hmask h
  simp only [sample] at h
  cases x with
  | none =>
      have h0 : inRange model.num_labels
          (fun pos => R.initTok pos % (model.num_labels : ℤ)) :=
        fun pos => emod_bounds model.num_labels hn (R.initTok pos)
      exact runSteps_inRange model cfg c c_full mask R _ hn hmask h0 _ _ _ h0 h
  | some xc =>
      cases mask with
      | none =>
          exact runSteps_inRange model cfg c c_full none R _ hn trivial hx _ _ _
            hx h
      | some m =>
          have h0 : inRange model.num_labels (fun pos =>
              R.maskNoise pos % (model.num_labels : ℤ) * m pos +
                (1 - m pos) * xc pos) := by
            intro pos
            simp only []
            rcases hmask pos with hm | hm
            · have h1 : R.maskNoise pos % (model.num_labels : ℤ) * m pos +
                  (1 - m pos) * xc pos = xc pos := by rw [hm]; ring
              rw [h1]
              exact hx pos
            · have h1 : R.maskNoise pos % (model.num_labels : ℤ) * m pos +
                  (1 - m pos) * xc pos =
                    R.maskNoise pos % (model.num_labels : ℤ) := by rw [hm]; ring
              rw [h1]
              exact emod_bounds model.num_labels hn (R.maskNoise pos)
          exact runSteps_inRange model cfg c c_full (some m) R _ hn hmask h0 _ _ _
            h0 h

/-- C9 witness: the grid returned by a concrete masked run is in range. -/
theorem token_values_in_range_witness :
    inRange model1.num_labels (fun _ => (0 : ℤ)) :=
  (token_values_in_range model1 cfg0 zeroR zeroR rand0 (by decide)).2.2.2
    (some gridZ) (some maskAll0) (fun _ => (0 : ℤ))
    (fun _ => ⟨le_refl 0, by show (0 : ℤ) < ((1 : ℕ) : ℤ); decide⟩)
    (fun _ => Or.inl rfl) rfl

/-! ### List helpers for the typicality sort -/

theorem getD_map_range {α : Type} (m : ℕ) (f : ℕ → α) (i : ℕ) (d : α)
    (h : i < m) : ((List.range m).map f).getD i d = f i := by
  rw [List.getD_eq_getElem?_getD, List.getElem?_map, List.getElem?_range h]
  rfl

theorem getD_of_lt {α : Type} (l : List α) (k : ℕ) (d : α) (hk : k < l.length) :
    l.getD k d ∈ l := by
  rw [List.getD_eq_getElem?_getD, List.getElem?_eq_getElem hk, Option.getD_some]
  exact List.getElem_mem hk

theorem getD_map {α β : Type} (l : List α) (f : α → β) (k : ℕ) (d : β) (d' : α)
    (hk : k < l.length) : (l.map f).getD k d = f (l.getD k d') := by
  rw [List.getD_eq_getElem?_getD, List.getElem?_map, List.getElem?_eq_getElem hk,
    List.getD_eq_getElem?_getD, List.getElem?_eq_getElem hk]
  rfl

theorem countP_not_add {α : Type} (p : α → Bool) (l : List α) :
    l.countP p + l.countP (fun a => !(p a)) = l.length := by
  induction l with
  | nil => rfl
  | cons a t ih =>
      cases h : p a <;> simp [List.countP_cons, h] <;> omega

/-! ### Structure of the typicality sort -/

theorem sortPairs_perm (row : ℕ → ℝ) (n : ℕ) :
    (sortPairs row n).Perm ((List.range n).map fun j => (j, c_flat_shifted row n j)) :=
  List.mergeSort_perm _ _

theorem length_sortPairs (row : ℕ → ℝ) (n : ℕ) : (sortPairs row n).length = n := by
  rw [sortPairs, List.length_mergeSort, List.length_map, List.length_range]

theorem mem_sortPairs (row : ℕ → ℝ) (n : ℕ) (p : ℕ × ℝ) (hp : p ∈ sortPairs row n) :
    p.1 < n ∧ p.2 = c_flat_shifted row n p.1 := by
  have hmem := (sortPairs_perm row n).mem_iff.mp hp
  obtain ⟨j, hj, hpe⟩ := List.mem_map.mp hmem
  rw [← hpe]
  exact ⟨List.mem_range.mp hj, rfl⟩

theorem x_flat_indices_perm (row : ℕ → ℝ) (n : ℕ) :
    (x_flat_indices row n).Perm (List.range n) := by
  have h := (sortPairs_perm row n).map Prod.fst
  have h2 : (((List.range n).map fun j => (j, c_flat_shifted row n j)).map
      Prod.fst) = List.range n := by
    rw [List.map_map]
    exact List.map_id _
  rw [x_flat_indices]
  rwa [h2] at h

theorem length_x_flat_indices (row : ℕ → ℝ) (n : ℕ) :
    (x_flat_indices row n).length = n := by
  rw [x_flat_indices, List.length_map, length_sortPairs]

theorem length_c_flat_sorted (row : ℕ → ℝ) (n : ℕ) :
    (c_flat_sorted row n).length = n := by
  rw [c_flat_sorted, List.length_map, length_sortPairs]

theorem x_flat_indices_nodup (row : ℕ → ℝ) (n : ℕ) :
    (x_flat_indices row n).Nodup :=
  (x_flat_indices_perm row n).nodup_iff.mpr (List.nodup_range n)

theorem x_flat_indices_getD_lt (row : ℕ → ℝ) (n : ℕ) (k : ℕ) (hk : k < n) :
    (x_flat_indices row n).getD k 0 < n := by
  have hkk : k < (x_flat_indices row n).length := by
    rw [length_x_flat_indices]; exact hk
  have hmem := getD_of_lt (x_flat_indices row n) k 0 hkk
  rw [x_flat_indices] at hmem ⊢
  obtain ⟨p, hp, hpe⟩ := List.mem_map.mp hmem
  rw [← hpe]
  exact (mem_sortPairs row n p hp).1

/-- The sorted distances are the distances of the sorted classes. -/
theorem c_flat_sorted_getD (row : ℕ → ℝ) (n : ℕ) (k : ℕ) (hk : k < n) :
    (c_flat_sorted row n).getD k 0 =
      c_flat_shifted row n ((x_flat_indices row n).getD k 0) := by
  have hk1 : k < (sortPairs row n).length := by rw [length_sortPairs]; exact hk
  have hmem := getD_of_lt (sortPairs row n) k (0, 0) hk1
  have hchar := mem_sortPairs row n _ hmem
  rw [c_flat_sorted, getD_map _ _ _ _ (0, 0) hk1, x_flat_indices,
    getD_map _ _ _ _ (0, 0) hk1]
  exact hchar.2

theorem sortPairs_pairwise (row : ℕ → ℝ) (n : ℕ) :
    (sortPairs row n).Pairwise (fun a b : ℕ × ℝ => a.2 ≤ b.2) := by
  have htrans : ∀ a b c : ℕ × ℝ, decide (a.2 ≤ b.2) → decide (b.2 ≤ c.2) →
      decide (a.2 ≤ c.2) := by
    intro a b c hab hbc
    simp only [decide_eq_true_eq] at hab hbc ⊢
    exact le_trans hab hbc
  have htotal : ∀ a b : ℕ × ℝ, decide (a.2 ≤ b.2) || decide (b.2 ≤ a.2) := by
    intro a b
    rcases le_total a.2 b.2 with h | h <;> simp [h]
  have hs := List.sorted_mergeSort htrans htotal
    ((List.range n).map fun j => (j, c_flat_shifted row n j))
  rw [sortPairs]
  exact hs.imp fun h => of_decide_eq_true h

/-- Monotonicity of the sorted distance values. -/
theorem c_flat_sorted_mono (row : ℕ → ℝ) (n : ℕ) (k k' : ℕ) (hkk : k ≤ k')
    (hk' : k' < n) :
    (c_flat_sorted row n).getD k 0 ≤ (c_flat_sorted row n).getD k' 0 := by
  rcases eq_or_lt_of_le hkk with rfl | hlt
  · exact le_rfl
  · have hk1 : k < (sortPairs row n).length := by
      rw [length_sortPairs]; omega
    have hk1' : k' < (sortPairs row n).length := by
      rw [length_sortPairs]; exact hk'
    have hp := sortPairs_pairwise row n
    rw [List.pairwise_iff_getElem] at hp
    have hrel := hp k k' hk1 hk1' hlt
    rw [c_flat_sorted, getD_map _ _ _ _ (0, 0) hk1, getD_map _ _ _ _ (0, 0) hk1',
      List.getD_eq_getElem?_getD, List.getElem?_eq_getElem hk1,
      List.getD_eq_getElem?_getD, List.getElem?_eq_getElem hk1', Option.getD_some,
      Option.getD_some]
    exact hrel

/-! ### Scatter inversion -/

theorem findIdx?_beq_of_nodup (l : List ℕ) (k : ℕ) (hk : k < l.length)
    (hnd : l.Nodup) : l.findIdx? (fun v => v == l.getD k 0) = some k := by
  induction l generalizing k with
  | nil => simp at hk
  | cons a t ih =>
      cases k with
      | zero => simp [List.findIdx?_cons, List.getD_cons_zero]
      | succ k =>
          have hk' : k < t.length := by simpa using hk
          have hmem : t.getD k 0 ∈ t := getD_of_lt t k 0 hk'
          have hne : ¬(a == t.getD k 0) = true := by
            simp only [beq_iff_eq]
            intro he
            exact (List.nodup_cons.mp hnd).1 (he ▸ hmem)
          rw [List.getD_cons_succ, List.findIdx?_cons, if_neg hne,
            List.findIdx?_succ, ih k hk' (List.nodup_cons.mp hnd).2]
          rfl

theorem length_scatterRow (base src : List Bool) (index : List ℕ) :
    (scatterRow base index src).length = base.length := by
  rw [scatterRow, List.length_map, List.length_range]

theorem scatterRow_getD (base src : List Bool) (index : List ℕ) (k : ℕ)
    (hk : k < index.length) (hnd : index.Nodup)
    (hval : index.getD k 0 < base.length) :
    (scatterRow base index src).getD (index.getD k 0) false = src.getD k false := by
  have hfind := findIdx?_beq_of_nodup index k hk hnd
  rw [scatterRow, getD_map_range base.length _ (index.getD k 0) false hval, hfind]

/-! ### Counting kept classes through the scatter -/

theorem countP_range_comp_perm (l : List ℕ) (n : ℕ)
    (hp : l.Perm (List.range n)) (p : ℕ → Bool) :
    (List.range n).countP p = (List.range n).countP fun k => p (l.getD k 0) := by
  have hlen : l.length = n := by
    have := hp.length_eq
    rwa [List.length_range] at this
  have hmap : l = (List.range l.length).map fun k => l.getD k 0 := by
    apply List.ext_getElem
    · rw [List.length_map, List.length_range]
    · intro i h1 h2
      rw [List.getElem_map, List.getElem_range, List.getD_eq_getElem?_getD,
        List.getElem?_eq_getElem h1, Option.getD_some]
  calc (List.range n).countP p = l.countP p := (hp.countP_eq p).symm
    _ = ((List.range l.length).map fun k => l.getD k 0).countP p := by
        rw [← hmap]
    _ = (List.range n).countP fun k => p (l.getD k 0) := by
        rw [List.countP_map, hlen]
        rfl

theorem keptCount_masked_fill (row : ℕ → ℝ) (rem : List Bool) (n : ℕ) :
    keptCount (masked_fill row rem) n =
      (List.range n).countP fun j => !(rem.getD j false) := by
  rw [keptCount]
  apply List.countP_congr
  intro j _
  cases hr : rem.getD j false <;> rw [List.getD_eq_getElem?_getD] at hr <;>
    simp [masked_fill, hr]

/-- Counting kept classes of a scatter-masked row over the original class
positions equals counting non-removed sorted positions. -/
theorem keptCount_scatter (row : ℕ → ℝ) (n : ℕ) (srem : List Bool)
    (hlen : srem.length = n) :
    keptCount (masked_fill row (scatterRow srem (x_flat_indices row n) srem)) n =
      (List.range n).countP fun k => !(srem.getD k false) := by
  rw [keptCount_masked_fill,
    countP_range_comp_perm (x_flat_indices row n) n (x_flat_indices_perm row n)]
  apply List.countP_congr
  intro k hk
  have hk' : k < n := List.mem_range.mp hk
  have hkk : k < (x_flat_indices row n).length := by
    rw [length_x_flat_indices]; exact hk'
  have hval : (x_flat_indices row n).getD k 0 < srem.length := by
    rw [hlen]
    exact x_flat_indices_getD_lt row n k hk'
  rw [scatterRow_getD srem srem (x_flat_indices row n) k hkk
    (x_flat_indices_nodup row n) hval]

/-! ### The cumulative mass reaches 1, so the cutoff index is in range -/

theorem sum_sorted_probs (row : ℕ → ℝ) (n : ℕ) (hn : 0 < n) :
    (((x_flat_indices row n).map row).map fun v =>
        Real.exp v / ((((x_flat_indices row n).map row).map Real.exp).sum)).sum
      = 1 := by
  have hglen : ((x_flat_indices row n).map row).length = n := by
    rw [List.length_map, length_x_flat_indices]
  have hgne : (x_flat_indices row n).map row ≠ [] := by
    intro he
    rw [he] at hglen
    simp at hglen
    omega
  have hspos : 0 < ((((x_flat_indices row n).map row).map Real.exp).sum) := by
    apply List.sum_pos
    · intro v hv
      obtain ⟨w, _, rfl⟩ := List.mem_map.mp hv
      exact Real.exp_pos w
    · intro he
      exact hgne (List.map_eq_nil_iff.mp he)
  have hmul : (((x_flat_indices row n).map row).map fun v =>
      Real.exp v / ((((x_flat_indices row n).map row).map Real.exp).sum)).sum =
        ((((x_flat_indices row n).map row).map Real.exp).sum) *
          ((((x_flat_indices row n).map row).map Real.exp).sum)⁻¹ := by
    simp only [div_eq_mul_inv]
    rw [List.sum_map_mul_right]
  rw [hmul, mul_inv_cancel₀ (ne_of_gt hspos)]

theorem length_x_flat_cumsum (row : ℕ → ℝ) (n : ℕ) :
    (x_flat_cumsum row n).length = n := by
  simp only [x_flat_cumsum]
  rw [List.length_map, List.length_range, List.length_map, List.length_map,
    length_x_flat_indices]

theorem x_flat_cumsum_getD_last (row : ℕ → ℝ) (n : ℕ) (hn : 0 < n) :
    (x_flat_cumsum row n).getD (n - 1) 0 = 1 := by
  simp only [x_flat_cumsum]
  have hplen : (((x_flat_indices row n).map row).map fun v =>
      Real.exp v / ((((x_flat_indices row n).map row).map Real.exp).sum)).length
        = n := by
    rw [List.length_map, List.length_map, length_x_flat_indices]
  rw [getD_map_range _ _ _ _ (by rw [hplen]; omega), Nat.sub_add_cancel hn,
    List.take_of_length_le (le_of_eq hplen)]
  exact sum_sorted_probs row n hn

theorem last_ind_lt (row : ℕ → ℝ) (n : ℕ) (mass : ℝ) (hn : 0 < n)
    (hm : mass ≤ 1) : last_ind row n mass < n := by
  rw [last_ind]
  have hlen : (x_flat_cumsum row n).length = n := length_x_flat_cumsum row n
  have hcount : (x_flat_cumsum row n).countP (fun v => decide (v < mass)) ≤
      (x_flat_cumsum row n).length := List.countP_le_length _
  rcases lt_or_eq_of_le hcount with h | h
  · omega
  · exfalso
    have hall := List.countP_eq_length.mp h
    have hmem : (x_flat_cumsum row n).getD (n - 1) 0 ∈ x_flat_cumsum row n :=
      getD_of_lt _ _ _ (by omega)
    have hd := hall _ hmem
    rw [x_flat_cumsum_getD_last row n hn] at hd
    simp only [decide_eq_true_eq] at hd
    linarith

/-! ### The removal vector in sorted order -/

theorem length_sorted_indices_to_remove (row : ℕ → ℝ) (n : ℕ) (mass : ℝ)
    (mt : ℕ) : (sorted_indices_to_remove row n mass mt).length = n := by
  rw [sorted_indices_to_remove]
  by_cases hmt : 1 < mt
  · rw [if_pos hmt, List.length_mapIdx, List.length_map, length_c_flat_sorted]
  · rw [if_neg hmt, List.length_map, length_c_flat_sorted]

theorem sorted_indices_to_remove_getD (row : ℕ → ℝ) (n : ℕ) (mass : ℝ) (mt k : ℕ)
    (hk : k < n) :
    (sorted_indices_to_remove row n mass mt).getD k false =
      if 1 < mt ∧ k < mt then false
      else decide ((c_flat_sorted row n).getD (last_ind row n mass) 0 <
        (c_flat_sorted row n).getD k 0) := by
  have hk1 : k < (c_flat_sorted row n).length := by
    rw [length_c_flat_sorted]; exact hk
  have hbase : ((c_flat_sorted row n).map fun v =>
      decide ((c_flat_sorted row n).getD (last_ind row n mass) 0 < v)).getD k false
        = decide ((c_flat_sorted row n).getD (last_ind row n mass) 0 <
            (c_flat_sorted row n).getD k 0) :=
    getD_map _ _ _ _ 0 hk1
  rw [sorted_indices_to_remove]
  by_cases hmt : 1 < mt
  · rw [if_pos hmt]
    have hk2 : k < ((c_flat_sorted row n).map fun v =>
        decide ((c_flat_sorted row n).getD (last_ind row n mass) 0 < v)).length := by
      rw [List.length_map]; exact hk1
    rw [List.getD_eq_getElem?_getD, List.getElem?_mapIdx,
      List.getElem?_eq_getElem hk2]
    by_cases hkmt : k < mt
    · simp [hkmt, hmt]
    · rw [if_neg (by omega : ¬(1 < mt ∧ k < mt))]
      simp only [Option.map_some', Option.getD_some, if_neg hkmt]
      rw [List.getElem_map]
      simp [List.getD_eq_getElem?_getD, List.getElem?_eq_getElem hk1]
  · rw [if_neg hmt, if_neg (by omega : ¬(1 < mt ∧ k < mt)), hbase]

/-! ### C3: the filter keeps at least `typical_min_tokens` classes -/

theorem keptCount_typical_filter (row : ℕ → ℝ) (n : ℕ) (mass : ℝ) (mt : ℕ) :
    keptCount (typical_filter row n mass mt) n =
      (List.range n).countP fun k =>
        !((sorted_indices_to_remove row n mass mt).getD k false) := by
  rw [typical_filter, indices_to_remove]
  exact keptCount_scatter row n _ (length_sorted_indices_to_remove row n mass mt)

/-- C3 (corrected/amended): for every logit row with `n > 0` classes, every
`typical_mass ∈ (0, 1]` and every `typical_min_tokens` with
`1 ≤ typical_min_tokens ≤ n`, the filter keeps at least
`typical_min_tokens` finite scores and sets at most
`n - typical_min_tokens` classes to `-inf`. The claim's unbounded
"every typical_min_tokens ≥ 1" is wrong: with `typical_min_tokens > n`
only `n` classes exist and fewer than `typical_min_tokens` survive (see
the counterexample). -/
theorem typical_filter_keeps_min_tokens (row : ℕ → ℝ) (n : ℕ) (mass : ℝ) (mt : ℕ)
    (hn : 0 < n) (hm0 : 0 < mass) (hm1 : mass ≤ 1) (hmt1 : 1 ≤ mt)
    (hmtn : mt ≤ n) :
    mt ≤ keptCount (typical_filter row n mass mt) n ∧
      (List.range n).countP (fun j => decide (typical_filter row n mass mt j = ⊥))
        ≤ n - mt := by
  have hkept : mt ≤ keptCount (typical_filter row n mass mt) n := by
    rw [keptCount_typical_filter]
    by_cases hmt : 1 < mt
    · have hall : ∀ k ∈ List.range mt,
          (!((sorted_indices_to_remove row n mass mt).getD k false)) = true := by
        intro k hk
        have hk' : k < mt := List.mem_range.mp hk
        rw [sorted_indices_to_remove_getD row n mass mt k (lt_of_lt_of_le hk' hmtn),
          if_pos ⟨hmt, hk'⟩]
        rfl
      have h1 : (List.range mt).countP (fun k =>
          !((sorted_indices_to_remove row n mass mt).getD k false)) = mt := by
        rw [List.countP_eq_length.mpr hall, List.length_range]
      have h2 : (List.range mt).countP (fun k =>
          !((sorted_indices_to_remove row n mass mt).getD k false)) ≤
            (List.range n).countP (fun k =>
              !((sorted_indices_to_remove row n mass mt).getD k false)) := by
        apply List.Sublist.countP_le
        exact List.range_sublist.mpr hmtn
      omega
    · have h0 : (!((sorted_indices_to_remove row n mass mt).getD 0 false)) = true := by
        rw [sorted_indices_to_remove_getD row n mass mt 0 hn,
          if_neg (by omega : ¬(1 < mt ∧ 0 < mt))]
        have hmono := c_flat_sorted_mono row n 0 (last_ind row n mass)
          (Nat.zero_le _) (last_ind_lt row n mass hn hm1)
        rw [Bool.not_eq_true', decide_eq_false_iff_not]
        exact not_lt.mpr hmono
      have hpos : 0 < (List.range n).countP (fun k =>
          !((sorted_indices_to_remove row n mass mt).getD k false)) :=
        List.countP_pos_iff.mpr ⟨0, List.mem_range.mpr hn, h0⟩
      omega
  refine ⟨hkept, ?_⟩
  have hco : (List.range n).countP (fun j =>
      decide (typical_filter row n mass mt j = ⊥)) =
        (List.range n).countP (fun j =>
          !(decide (typical_filter row n mass mt j ≠ ⊥))) := by
    apply List.countP_congr
    intro j _
    by_cases hb : typical_filter row n mass mt j = ⊥ <;> simp [hb]
  have hadd := countP_not_add
    (fun j => decide (typical_filter row n mass mt j ≠ ⊥)) (List.range n)
  have hkc : keptCount (typical_filter row n mass mt) n =
      (List.range n).countP fun j =>
        decide (typical_filter row n mass mt j ≠ ⊥) := rfl
  rw [List.length_range] at hadd
  rw [hco]
  omega

/-- C3 witness: concrete bounds at a two-class uniform row. -/
theorem typical_filter_keeps_min_tokens_witness :
    1 ≤ keptCount (typical_filter (fun _ => (0 : ℝ)) 2 1 1) 2 ∧
      (List.range 2).countP
          (fun j => decide (typical_filter (fun _ => (0 : ℝ)) 2 1 1 j = ⊥))
        ≤ 2 - 1 :=
  typical_filter_keeps_min_tokens (fun _ => (0 : ℝ)) 2 1 1 (by norm_num)
    (by norm_num) le_rfl le_rfl (by norm_num)

/-- C3 counterexample: with a single class (`num_labels = 1`) and
`typical_min_tokens = 2` — a value the claim's "every
typical_min_tokens ≥ 1" allows — only one class keeps a finite score:
fewer than `typical_min_tokens`. -/
theorem typical_filter_min_tokens_exceeds_labels :
    keptCount (typical_filter (fun _ => (0 : ℝ)) 1 1 2) 1 = 1 ∧ ¬(2 ≤ 1) := by
  refine ⟨?_, by omega⟩
  rw [keptCount_typical_filter]
  have hall : ∀ k ∈ List.range 1,
      (!((sorted_indices_to_remove (fun _ => (0 : ℝ)) 1 1 2).getD k false))
        = true := by
    intro k hk
    have hk' : k < 1 := List.mem_range.mp hk
    have hk0 : k = 0 := by omega
    subst hk0
    rw [sorted_indices_to_remove_getD (fun _ => (0 : ℝ)) 1 1 2 0 (by norm_num),
      if_pos (by norm_num : 1 < 2 ∧ 0 < 2)]
    rfl
  rw [List.countP_eq_length.mpr hall, List.length_range]

/-! ### C2: what exactly the typical filter keeps -/

theorem indices_to_remove_getD_idx (row : ℕ → ℝ) (n : ℕ) (mass : ℝ) (mt k : ℕ)
    (hk : k < n) :
    (indices_to_remove row n mass mt).getD ((x_flat_indices row n).getD k 0) false
      = (sorted_indices_to_remove row n mass mt).getD k false := by
  rw [indices_to_remove]
  apply scatterRow_getD
  · rw [length_x_flat_indices]; exact hk
  · exact x_flat_indices_nodup row n
  · rw [length_sorted_indices_to_remove]
    exact x_flat_indices_getD_lt row n k hk

/-- The score the filter assigns to the class at sorted position `k`:
kept (finite) iff its distance does not exceed the distance at the cutoff
position, or it is protected by `typical_min_tokens`. -/
theorem typical_filter_at_sorted (row : ℕ → ℝ) (n : ℕ) (mass : ℝ) (mt k : ℕ)
    (hk : k < n) :
    typical_filter row n mass mt ((x_flat_indices row n).getD k 0) =
      if (c_flat_sorted row n).getD (last_ind row n mass) 0 <
            (c_flat_sorted row n).getD k 0 ∧ (mt ≤ 1 ∨ mt ≤ k)
        then (⊥ : EReal)
        else ((row ((x_flat_indices row n).getD k 0) : ℝ) : EReal) := by
  rw [typical_filter]
  simp only [masked_fill]
  rw [indices_to_remove_getD_idx row n mass mt k hk,
    sorted_indices_to_remove_getD row n mass mt k hk]
  by_cases h1 : 1 < mt ∧ k < mt
  · have hC : ¬((c_flat_sorted row n).getD (last_ind row n mass) 0 <
        (c_flat_sorted row n).getD k 0 ∧ (mt ≤ 1 ∨ mt ≤ k)) := by
      rintro ⟨_, h2 | h2⟩ <;> omega
    rw [if_pos h1, if_neg hC, if_neg (by simp : ¬(false = true))]
  · rw [if_neg h1]
    by_cases hcut : (c_flat_sorted row n).getD (last_ind row n mass) 0 <
        (c_flat_sorted row n).getD k 0
    · have hC : (c_flat_sorted row n).getD (last_ind row n mass) 0 <
          (c_flat_sorted row n).getD k 0 ∧ (mt ≤ 1 ∨ mt ≤ k) := ⟨hcut, by omega⟩
      rw [if_pos hC, if_pos (by rw [decide_eq_true_eq]; exact hcut)]
    · have hC : ¬((c_flat_sorted row n).getD (last_ind row n mass) 0 <
          (c_flat_sorted row n).getD k 0 ∧ (mt ≤ 1 ∨ mt ≤ k)) := fun hc => hcut hc.1
      rw [if_neg hC, if_neg (by rw [decide_eq_true_eq]; exact hcut)]

/-! ### The arg-max never selects a `⊥` score -/

theorem argmaxGo_spec (t : List EReal) : ∀ (best : EReal) (bi cur : ℕ),
    ∃ m, (argmaxGo best bi cur t = bi ∧ m = best ∨
        ∃ k, k < t.length ∧ argmaxGo best bi cur t = cur + k ∧ t.getD k ⊥ = m) ∧
      best ≤ m ∧ ∀ v ∈ t, v ≤ m := by
  induction t with
  | nil =>
      intro best bi cur
      exact ⟨best, Or.inl ⟨rfl, rfl⟩, le_rfl, by simp⟩
  | cons v tl ih =>
      intro best bi cur
      unfold argmaxGo
      by_cases hlt : best < v
      · rw [if_pos hlt]
        obtain ⟨m, hcase, hvm, hall⟩ := ih v cur (cur + 1)
        refine ⟨m, ?_, le_of_lt (lt_of_lt_of_le hlt hvm), ?_⟩
        · rcases hcase with ⟨he, hm⟩ | ⟨k, hkk, he, hm⟩
          · refine Or.inr ⟨0, by simp, by omega, ?_⟩
            rw [List.getD_cons_zero, hm]
          · refine Or.inr ⟨k + 1, by simp; omega, he.trans (by omega), ?_⟩
            rw [List.getD_cons_succ]
            exact hm
        · intro w hw
          rcases List.mem_cons.mp hw with rfl | hw
          · exact hvm
          · exact hall w hw
      · rw [if_neg hlt]
        obtain ⟨m, hcase, hvm, hall⟩ := ih best bi (cur + 1)
        refine ⟨m, ?_, hvm, ?_⟩
        · rcases hcase with ⟨he, hm⟩ | ⟨k, hkk, he, hm⟩
          · exact Or.inl ⟨he, hm⟩
          · refine Or.inr ⟨k + 1, by simp; omega, he.trans (by omega), ?_⟩
            rw [List.getD_cons_succ]
            exact hm
        · intro w hw
          rcases List.mem_cons.mp hw with rfl | hw
          · exact le_trans (not_lt.mp hlt) hvm
          · exact hall w hw

theorem argmaxIdx_getD_max (l : List EReal) (k : ℕ) (hk : k < l.length) :
    l.getD k ⊥ ≤ l.getD (argmaxIdx l) ⊥ := by
  cases l with
  | nil => simp at hk
  | cons v t =>
      obtain ⟨m, hcase, hvm, hall⟩ := argmaxGo_spec t v 0 1
      unfold argmaxIdx
      have hres : (v :: t).getD (argmaxGo v 0 1 t) ⊥ = m := by
        rcases hcase with ⟨he, hm⟩ | ⟨k', hk', he, hm⟩
        · rw [he, List.getD_cons_zero, hm]
        · rw [he, Nat.add_comm 1 k', List.getD_cons_succ, hm]
      rw [hres]
      cases k with
      | zero => rw [List.getD_cons_zero]; exact hvm
      | succ k =>
          rw [List.getD_cons_succ]
          exact hall _ (getD_of_lt t k ⊥ (by simpa using hk))

theorem gumbel_entry_bot (temperature g : ℝ) :
    (⊥ : EReal) / ((max temperature (1 / 10 ^ 10) : ℝ) : EReal) +
      ((g : ℝ) : EReal) = ⊥ := by
  have hpos : (0 : ℝ) < max temperature (1 / 10 ^ 10) :=
    lt_max_of_lt_right (by norm_num)
  have hdiv : (⊥ : EReal) / ((max temperature (1 / 10 ^ 10) : ℝ) : EReal) = ⊥ := by
    rw [div_eq_mul_inv, ← EReal.coe_inv]
    exact EReal.bot_mul_coe_of_pos (inv_pos.mpr hpos)
  rw [hdiv, EReal.bot_add]

theorem gumbel_entry_coe (temperature g a : ℝ) :
    ((a : ℝ) : EReal) / ((max temperature (1 / 10 ^ 10) : ℝ) : EReal) +
        ((g : ℝ) : EReal) =
      ((a / max temperature (1 / 10 ^ 10) + g : ℝ) : EReal) := by
  rw [EReal.coe_add, EReal.coe_div]

/-- A class whose score was set to `⊥` is never chosen by `gumbel_sample`
as long as some class keeps a finite score. -/
theorem gumbel_sample_avoids_bot (t : ℕ → EReal) (n : ℕ) (u : ℕ → ℝ)
    (temperature : ℝ) (j j' : ℕ) (hj : j < n) (hj' : j' < n) (hbot : t j = ⊥)
    (a : ℝ) (hfin : t j' = ((a : ℝ) : EReal)) :
    gumbel_sample t n u temperature ≠ j := by
  intro he
  rw [gumbel_sample] at he
  have hlen : ((List.range n).map fun jj =>
      t jj / ((max temperature (1 / 10 ^ 10) : ℝ) : EReal) +
        ((gumbel_noise (u jj) : ℝ) : EReal)).length = n := by
    rw [List.length_map, List.length_range]
  have hmax := argmaxIdx_getD_max ((List.range n).map fun jj =>
      t jj / ((max temperature (1 / 10 ^ 10) : ℝ) : EReal) +
        ((gumbel_noise (u jj) : ℝ) : EReal)) j' (by rw [hlen]; exact hj')
  rw [he] at hmax
  rw [getD_map_range n _ j' ⊥ hj', getD_map_range n _ j ⊥ hj] at hmax
  rw [hbot, hfin, gumbel_entry_bot, gumbel_entry_coe] at hmax
  exact (EReal.bot_lt_coe _).not_le hmax

/-- C2 (corrected/amended): the typical filter sorts the classes by
ascending typicality distance (`x_flat_indices` is a permutation of the
classes, the sorted distance list is non-decreasing and holds the
distances of the permuted classes), accumulates softmax mass in that order
up to the cutoff position `last_ind`, and a class is set to `-inf` iff its
distance strictly exceeds the distance at the cutoff position and it is
not protected by `typical_min_tokens`; a removed class can never be
selected by the subsequent arg-max sampling. In particular every class up
to the cutoff is kept, but later classes whose distance ties the cutoff
distance are kept as well — the claim's "keeps exactly the classes up to
that cutoff" fails under ties (see the counterexample). -/
theorem typical_filter_semantics (row : ℕ → ℝ) (n : ℕ) (mass : ℝ) (mt : ℕ)
    (hn : 0 < n) :
    (x_flat_indices row n).Perm (List.range n) ∧
    (c_flat_sorted row n).Sorted (· ≤ ·) ∧
    (∀ k, k < n → (c_flat_sorted row n).getD k 0 =
      c_flat_shifted row n ((x_flat_indices row n).getD k 0)) ∧
    (∀ k, k < n →
      typical_filter row n mass mt ((x_flat_indices row n).getD k 0) =
        if (c_flat_sorted row n).getD (last_ind row n mass) 0 <
              (c_flat_sorted row n).getD k 0 ∧ (mt ≤ 1 ∨ mt ≤ k)
          then (⊥ : EReal)
          else ((row ((x_flat_indices row n).getD k 0) : ℝ) : EReal)) ∧
    (∀ (u : ℕ → ℝ) (temperature : ℝ) (j j' : ℕ), j < n → j' < n →
      typical_filter row n mass mt j = ⊥ → typical_filter row n mass mt j' ≠ ⊥ →
      gumbel_sample (typical_filter row n mass mt) n u temperature ≠ j) := by
  refine ⟨x_flat_indices_perm row n, ?_,
    fun k hk => c_flat_sorted_getD row n k hk,
    fun k hk => typical_filter_at_sorted row n mass mt k hk, ?_⟩
  · rw [List.Sorted, c_flat_sorted, List.pairwise_map]
    exact sortPairs_pairwise row n
  · intro u temperature j j' hj hj' hbot hfin
    have ha : typical_filter row n mass mt j' = ((row j' : ℝ) : EReal) := by
      rw [typical_filter] at hfin ⊢
      simp only [masked_fill] at hfin ⊢
      by_cases hb : (indices_to_remove row n mass mt).getD j' false
      · rw [if_pos hb] at hfin
        exact absurd rfl hfin
      · rw [if_neg hb]
    exact gumbel_sample_avoids_bot _ n u temperature j j' hj hj' hbot (row j') ha

/-- C2 witness: the sort underlying the filter permutes the classes, at a
concrete one-class row. -/
theorem typical_filter_semantics_witness :
    (x_flat_indices (fun _ => (0 : ℝ)) 1).Perm (List.range 1) :=
  (typical_filter_semantics (fun _ => (0 : ℝ)) 1 1 1 (by norm_num)).1

/-! ### C2 counterexample: distance ties keep classes beyond the cutoff -/

theorem row2_sum_exp :
    (((List.range 2).map fun k => Real.exp ((fun _ => (0 : ℝ)) k)).sum) = 2 := by
  rw [show List.range 2 = [0, 1] from rfl]
  simp [Real.exp_zero]
  norm_num

theorem row2_norm (j : ℕ) :
    x_flat_norm (fun _ => (0 : ℝ)) 2 j = -(Real.log 2) := by
  rw [x_flat_norm, row2_sum_exp]
  simp

theorem row2_entropy : entropy (fun _ => (0 : ℝ)) 2 = Real.log 2 := by
  rw [entropy]
  rw [show List.range 2 = [0, 1] from rfl]
  simp only [List.map_cons, List.map_nil, row2_norm, List.sum_cons, List.sum_nil]
  rw [Real.exp_neg, Real.exp_log (by norm_num : (0 : ℝ) < 2)]
  ring

theorem row2_shifted (j : ℕ) : c_flat_shifted (fun _ => (0 : ℝ)) 2 j = 0 := by
  rw [c_flat_shifted, row2_norm, row2_entropy]
  simp

theorem row2_cs (k : ℕ) (hk : k < 2) :
    (c_flat_sorted (fun _ => (0 : ℝ)) 2).getD k 0 = 0 := by
  rw [c_flat_sorted_getD (fun _ => (0 : ℝ)) 2 k hk, row2_shifted]

theorem row2_g :
    (x_flat_indices (fun _ => (0 : ℝ)) 2).map (fun _ => (0 : ℝ)) = [0, 0] := by
  rw [List.map_const', length_x_flat_indices]
  rfl

theorem row2_cumsum : x_flat_cumsum (fun _ => (0 : ℝ)) 2 = [1 / 2, 1] := by
  simp only [x_flat_cumsum]
  rw [row2_g]
  norm_num [Real.exp_zero]
  rw [show List.range 2 = [0, 1] from rfl]
  norm_num

theorem row2_last_ind : last_ind (fun _ => (0 : ℝ)) 2 (1 / 5) = 0 := by
  rw [last_ind, row2_cumsum, List.countP_eq_zero]
  intro a ha
  rcases List.mem_cons.mp ha with rfl | ha
  · simp only [decide_eq_true_eq]
    norm_num
  · rcases List.mem_cons.mp ha with rfl | ha
    · simp only [decide_eq_true_eq]
      norm_num
    · simp at ha

theorem length_sorted_remove_cutoff_spec (row : ℕ → ℝ) (n : ℕ) (mass : ℝ)
    (mt : ℕ) : (sorted_remove_cutoff_spec row n mass mt).length = n := by
  rw [sorted_remove_cutoff_spec, List.length_map, List.length_range]

theorem row2_keeps_both :
    keptCount (typical_filter (fun _ => (0 : ℝ)) 2 (1 / 5) 1) 2 = 2 := by
  rw [keptCount_typical_filter]
  have hall : ∀ k ∈ List.range 2,
      (!((sorted_indices_to_remove (fun _ => (0 : ℝ)) 2 (1 / 5) 1).getD k false))
        = true := by
    intro k hk
    have hk' : k < 2 := List.mem_range.mp hk
    rw [sorted_indices_to_remove_getD (fun _ => (0 : ℝ)) 2 (1 / 5) 1 k hk',
      if_neg (by omega : ¬((1 : ℕ) < 1 ∧ k < 1)),
      row2_cs (last_ind (fun _ => (0 : ℝ)) 2 (1 / 5))
        (by rw [row2_last_ind]; norm_num),
      row2_cs k hk']
    simp
  rw [List.countP_eq_length.mpr hall, List.length_range]

theorem row2_spec_keeps_one :
    keptCount (typical_filter_cutoff_spec (fun _ => (0 : ℝ)) 2 (1 / 5) 1) 2 = 1 := by
  rw [typical_filter_cutoff_spec, keptCount_scatter (fun _ => (0 : ℝ)) 2 _
    (length_sorted_remove_cutoff_spec (fun _ => (0 : ℝ)) 2 (1 / 5) 1)]
  have h0 : (sorted_remove_cutoff_spec (fun _ => (0 : ℝ)) 2 (1 / 5) 1).getD 0 false
      = false := by
    rw [sorted_remove_cutoff_spec, getD_map_range 2 _ 0 false (by norm_num),
      row2_last_ind]
    rfl
  have h1 : (sorted_remove_cutoff_spec (fun _ => (0 : ℝ)) 2 (1 / 5) 1).getD 1 false
      = true := by
    rw [sorted_remove_cutoff_spec, getD_map_range 2 _ 1 false (by norm_num),
      row2_last_ind]
    rfl
  rw [show List.range 2 = [0, 1] from rfl]
  simp only [List.countP_cons, List.countP_nil, h0, h1]
  simp

/-- C2 counterexample: with two classes of equal logits every typicality
distance is 0 and the cumulative-mass cutoff at `typical_mass = 1/5` sits
at sorted position 0: the spec's "exactly the classes up to the cutoff"
keeps one class, but the code keeps both (the tie at the cutoff distance
survives the strict `>` comparison). -/
theorem typical_filter_tie_keeps_extra :
    keptCount (typical_filter (fun _ => (0 : ℝ)) 2 (1 / 5) 1) 2 = 2 ∧
      keptCount (typical_filter_cutoff_spec (fun _ => (0 : ℝ)) 2 (1 / 5) 1) 2 = 1 :=
  ⟨row2_keeps_both, row2_spec_keeps_one⟩

end Paella
